import Mathlib

/-!
Shallow embedding of the core of the weight-ocr-server repository:

* `extractWeightFromText` (src/ocrService.ts, lines 13–40): the Weight
  Extractor, a pure function from OCR text to a weight value and a
  heuristic confidence.  Text is modelled as `List Char`; JavaScript
  regular-expression global matching (`String.match` with the `g` flag)
  is modelled by explicit left-to-right scans (`decScan`, `wholeScan`)
  that attempt a match at every position and, on success, continue after
  the matched substring.  Termination of the scans is by an explicit
  fuel argument equal to the input length, so all definitions compute.
* `recognizeWeightResult` (src/ocrService.ts, lines 66–72): combination
  of the engine confidence (0–100 scale) with the extractor confidence.
  Numbers are modelled as rationals.
* the Admission Gate (src/server.ts, lines 14–17 and 512–543): the
  `activeOCRRequests` counter guarding the OCR call, with `tryEnter`
  modelling the check-and-increment at the top of the upload handler,
  `gateExit` the decrement in the `finally` block, and `uploadStep` the
  whole guarded section including the failure path of the OCR engine.
-/

namespace WeightOcr

/-- JavaScript's `\s` character class (used by `replace(/\s+/g, ' ')` and
by `String.prototype.trim`): ASCII whitespace, NBSP, and the Unicode
space separators plus line separators and BOM. -/
def isWs (c : Char) : Bool :=
  c.toNat == 0x20 || c.toNat == 0x09 || c.toNat == 0x0A || c.toNat == 0x0D ||
  c.toNat == 0x0B || c.toNat == 0x0C || c.toNat == 0xA0 || c.toNat == 0x1680 ||
  (0x2000 ≤ c.toNat && c.toNat ≤ 0x200A) ||
  c.toNat == 0x2028 || c.toNat == 0x2029 || c.toNat == 0x202F ||
  c.toNat == 0x205F || c.toNat == 0x3000 || c.toNat == 0xFEFF

/-- The decimal separators accepted by the pattern `[.,]`. -/
def isSep (c : Char) : Bool := c == '.' || c == ','

/-- `text.replace(/\s+/g, ' ')`: every maximal run of whitespace becomes a
single space (emitted at the last character of the run), all other
characters are kept unchanged. -/
def collapseWs : List Char → List Char
  | [] => []
  | [c] => if isWs c then [' '] else [c]
  | c :: d :: rest =>
    if isWs c then
      if isWs d then collapseWs (d :: rest)
      else ' ' :: collapseWs (d :: rest)
    else c :: collapseWs (d :: rest)

/-- `String.prototype.trim`: drop whitespace from both ends. -/
def trimWs (l : List Char) : List Char :=
  ((l.dropWhile isWs).reverse.dropWhile isWs).reverse

/-- `text.replace(/\s+/g, ' ').trim()` (src/ocrService.ts line 15). -/
def normalizeText (l : List Char) : List Char := trimWs (collapseWs l)

/-- One pass of `normalized.match(/(\d+[.,]\d+)/g)`: attempt a match at the
current position; a match requires the maximal digit run starting here to
be followed by a separator and at least one digit.  On success the match
(maximal first digit run, separator, maximal second digit run) is
collected and scanning continues after it; on failure scanning advances
one character.  Fuel bounds the recursion; `decScan` supplies enough. -/
def decScanAux : Nat → List Char → List (List Char)
  | 0, _ => []
  | _ + 1, [] => []
  | fuel + 1, c :: rest =>
    if c.isDigit then
      match (c :: rest).dropWhile Char.isDigit with
      | s :: e :: rest2 =>
        if isSep s && e.isDigit then
          ((c :: rest).takeWhile Char.isDigit ++ s :: (e :: rest2).takeWhile Char.isDigit)
            :: decScanAux fuel ((e :: rest2).dropWhile Char.isDigit)
        else decScanAux fuel rest
      | _ => decScanAux fuel rest
    else decScanAux fuel rest

/-- All matches of `/(\d+[.,]\d+)/g` on `l`, in text order. -/
def decScan (l : List Char) : List (List Char) := decScanAux l.length l

/-- One pass of `normalized.match(/\d+/g)`: each maximal digit run is a
match; scanning continues after it. -/
def wholeScanAux : Nat → List Char → List (List Char)
  | 0, _ => []
  | _ + 1, [] => []
  | fuel + 1, c :: rest =>
    if c.isDigit then
      ((c :: rest).takeWhile Char.isDigit)
        :: wholeScanAux fuel ((c :: rest).dropWhile Char.isDigit)
    else wholeScanAux fuel rest

/-- All matches of `/\d+/g` on `l`, in text order. -/
def wholeScan (l : List Char) : List (List Char) := wholeScanAux l.length l

/-- The reducer `(a, b) => a.length >= b.length ? a : b` used on both match
lists (src/ocrService.ts lines 23 and 37): keeps the earlier value on
ties, so the fold selects the first-occurring longest match. -/
def pickLonger (a b : List Char) : List Char :=
  if a.length ≥ b.length then a else b

/-- `matches.reduce(pickLonger)` on a non-empty match list `m :: ms`. -/
def longestOf (m : List Char) (ms : List (List Char)) : List Char :=
  ms.foldl pickLonger m

/-- `value.replace(',', '.')`: JavaScript `replace` with a string pattern
replaces only the first occurrence. -/
def replaceFirstComma : List Char → List Char
  | [] => []
  | c :: rest => if c = ',' then '.' :: rest else c :: replaceFirstComma rest

/-- The `{ value, confidence }` record returned by the extractor. -/
structure ExtractResult where
  value : List Char
  confidence : ℚ
deriving DecidableEq, Repr

/-- src/ocrService.ts lines 13–40, `extractWeightFromText`:
normalize whitespace; if any decimal match exists return the reduced
(first longest) decimal match with `,` replaced by `.` at confidence
0.95; otherwise if any whole-number match exists return the reduced
whole-number match at confidence 0.9; otherwise return the normalized
text itself at confidence 0.5. -/
def extractWeightFromText (text : List Char) : ExtractResult :=
  let normalized := trimWs (collapseWs text)
  match decScan normalized with
  | m :: ms => ⟨replaceFirstComma (longestOf m ms), 0.95⟩
  | [] =>
    match wholeScan normalized with
    | [] => ⟨normalized, 0.5⟩
    | m :: ms => ⟨longestOf m ms, 0.9⟩

/-- Spec-side selection criterion: `m` is the first element of maximal
length in the list `l` ("longest matching substring, ties broken by
first occurrence"). -/
def FirstLongest (m : List Char) (l : List (List Char)) : Prop :=
  ∃ l₁ l₂, l = l₁ ++ m :: l₂ ∧ (∀ y ∈ l₁, y.length < m.length) ∧
    (∀ y ∈ l₂, y.length ≤ m.length)

/-- Spec-side occurrence predicate: some substring of `l` is a decimal
number (one-or-more digits, a `.` or `,` separator, one-or-more
digits). -/
def DecimalOccurs (l : List Char) : Prop :=
  ∃ d₁ s d₂, d₁ ≠ [] ∧ d₂ ≠ [] ∧ (∀ c ∈ d₁, c.isDigit = true) ∧
    (∀ c ∈ d₂, c.isDigit = true) ∧ isSep s = true ∧ (d₁ ++ s :: d₂) <:+: l

/-- Spec-side occurrence predicate: some substring of `l` is a whole
number (one-or-more digits). -/
def WholeOccurs (l : List Char) : Prop :=
  ∃ d, d ≠ [] ∧ (∀ c ∈ d, c.isDigit = true) ∧ d <:+: l

/-- The `WeightRecognitionResult` record of src/ocrService.ts lines 3–7. -/
structure WeightRecognitionResult where
  weight : List Char
  confidence : ℚ
  rawText : List Char
deriving DecidableEq, Repr

/-- src/ocrService.ts lines 66–72: given the engine's raw text and its
confidence on the 0–100 scale, run the extractor and report
`(data.confidence * extracted.confidence) / 100` together with the
trimmed raw text. -/
def recognizeWeightResult (engineText : List Char) (engineConfidence : ℚ) :
    WeightRecognitionResult :=
  let extracted := extractWeightFromText engineText
  { weight := extracted.value
    confidence := engineConfidence * extracted.confidence / 100
    rawText := trimWs engineText }

/-! ## The Admission Gate (src/server.ts) -/

/-- src/server.ts lines 512–525: the check-and-increment at the top of the
upload handler.  Returns the new counter value and whether admission was
granted: if `activeOCRRequests >= MAX_CONCURRENT_OCR` the request is
rejected with the counter unchanged, otherwise the counter is
incremented. -/
def tryEnter (maxConcurrent count : ℤ) : ℤ × Bool :=
  if count ≥ maxConcurrent then (count, false) else (count + 1, true)

/-- src/server.ts line 541: the unconditional decrement in the `finally`
block. -/
def gateExit (count : ℤ) : ℤ := count - 1

/-- Outcome of the guarded OCR call: the engine either produces a result
or throws. -/
inductive OcrOutcome where
  | ok (result : WeightRecognitionResult)
  | engineError
deriving DecidableEq

/-- Response of the upload handler, as far as the gate is concerned. -/
inductive UploadResponse where
  | tooManyRequests
  | success (result : WeightRecognitionResult)
  | serverError
deriving DecidableEq

/-- src/server.ts lines 512–584, the guarded section of the upload
handler: reject when the counter is at the limit; otherwise increment,
run the OCR call, decrement in `finally` on both the normal and the
throwing path (the throw then propagates to the outer `catch`, which
answers 500). -/
def uploadStep (maxConcurrent count : ℤ) (ocr : OcrOutcome) :
    ℤ × UploadResponse :=
  if count ≥ maxConcurrent then
    (count, .tooManyRequests)
  else
    let entered := count + 1
    let released := gateExit entered
    match ocr with
    | .ok r => (released, .success r)
    | .engineError => (released, .serverError)

/-- Events driving the gate: an admission attempt (the whole
check-and-increment) or the exit of a previously granted section. -/
inductive GateEvent where
  | attempt
  | exitEv
deriving DecidableEq

/-- Run a sequence of gate events from counter value `count`. -/
def gateRun (maxConcurrent : ℤ) (count : ℤ) : List GateEvent → ℤ
  | [] => count
  | .attempt :: es => gateRun maxConcurrent (tryEnter maxConcurrent count).1 es
  | .exitEv :: es => gateRun maxConcurrent (gateExit count) es

/-- A trace is valid from `count` when every exit event corresponds to a
currently held granted section: in the handler the decrement runs in a
`finally` whose `try` is entered only after the increment, so an exit can
only occur while the counter is positive. -/
def gateValid (maxConcurrent : ℤ) (count : ℤ) : List GateEvent → Bool
  | [] => true
  | .attempt :: es => gateValid maxConcurrent (tryEnter maxConcurrent count).1 es
  | .exitEv :: es => 0 < count && gateValid maxConcurrent (gateExit count) es

end WeightOcr

/-! ## Character-class facts -/

namespace WeightOcr

theorem isDigit_iff_toNat (c : Char) :
    c.isDigit = true ↔ 48 ≤ c.toNat ∧ c.toNat ≤ 57 := by
  simp [Char.isDigit, Char.le_def, UInt32.le_def, BitVec.le_def, Char.toNat, UInt32.toNat]

theorem digit_not_ws {c : Char} (h : c.isDigit = true) : isWs c = false := by
  rw [isDigit_iff_toNat] at h
  simp only [isWs, Bool.or_eq_false_iff, beq_eq_false_iff_ne, ne_eq,
    Bool.and_eq_false_iff, decide_eq_false_iff_not, not_le]
  omega

theorem sep_not_ws {c : Char} (h : isSep c = true) : isWs c = false := by
  simp only [isSep, Bool.or_eq_true, beq_iff_eq] at h
  rcases h with rfl | rfl <;> decide

theorem sep_not_digit {c : Char} (h : isSep c = true) : c.isDigit = false := by
  simp only [isSep, Bool.or_eq_true, beq_iff_eq] at h
  rcases h with rfl | rfl <;> decide

/-! ## A small API for prefixes, suffixes and contiguous substrings -/

theorem sfx_toInner {l₁ l₂ : List Char} (h : l₁ <:+ l₂) : l₁ <:+: l₂ := by
  obtain ⟨s, rfl⟩ := h
  exact ⟨s, [], by simp⟩

theorem pfx_toInner {l₁ l₂ : List Char} (h : l₁ <+: l₂) : l₁ <:+: l₂ := by
  obtain ⟨t, rfl⟩ := h
  exact ⟨[], t, by simp⟩

theorem inner_cons_elim {m : List Char} {a : Char} {l : List Char}
    (h : m <:+: a :: l) : m <+: a :: l ∨ m <:+: l := by
  obtain ⟨s, t, hst⟩ := h
  cases s with
  | nil => exact Or.inl ⟨t, by simpa using hst⟩
  | cons b s' =>
    right
    cases hst
    exact ⟨s', t, rfl⟩

theorem inner_cons_of {m : List Char} (a : Char) {l : List Char}
    (h : m <:+: l) : m <:+: a :: l := by
  obtain ⟨s, t, rfl⟩ := h
  exact ⟨a :: s, t, rfl⟩

theorem inner_reverse {m l : List Char} (h : m <:+: l) :
    m.reverse <:+: l.reverse := by
  obtain ⟨s, t, rfl⟩ := h
  exact ⟨t.reverse, s.reverse, by simp⟩

theorem singleton_inner_iff_mem {a : Char} {l : List Char} :
    [a] <:+: l ↔ a ∈ l := by
  constructor
  · intro h
    exact h.subset (by simp)
  · intro h
    obtain ⟨s, t, rfl⟩ := List.append_of_mem h
    exact ⟨s, t, by simp⟩

end WeightOcr

/-! ## Whitespace normalization preserves whitespace-free substrings -/

namespace WeightOcr

theorem pfx_nil_elim {m : List Char} (h : m <+: ([] : List Char)) : m = [] := by
  obtain ⟨t, ht⟩ := h
  exact (List.append_eq_nil.mp ht).1

theorem inner_nil_elim {m : List Char} (h : m <:+: ([] : List Char)) : m = [] := by
  obtain ⟨s, t, hst⟩ := h
  rcases List.append_eq_nil.mp hst with ⟨h1, h2⟩
  exact (List.append_eq_nil.mp h1).2

theorem collapseWs_head_space {c : Char} (rest : List Char) (h : isWs c = true) :
    ∃ t, collapseWs (c :: rest) = ' ' :: t := by
  induction rest generalizing c with
  | nil => exact ⟨[], by simp [collapseWs, h]⟩
  | cons d rest ih =>
    by_cases hd : isWs d
    · obtain ⟨t, ht⟩ := ih hd
      exact ⟨t, by simp [collapseWs, h, hd, ht]⟩
    · exact ⟨collapseWs (d :: rest), by simp [collapseWs, h, hd]⟩

theorem pfx_collapseWs {m l : List Char} (hm : ∀ x ∈ m, isWs x = false)
    (h : m <+: l) : m <+: collapseWs l := by
  induction l generalizing m with
  | nil => simp [pfx_nil_elim h, collapseWs]
  | cons c rest ih =>
    rcases m with _ | ⟨b, m'⟩
    · simp
    · obtain ⟨rfl, hm'⟩ := List.cons_prefix_cons.mp h
      have hbws : isWs b = false := hm b (by simp)
      rcases rest with _ | ⟨d, rest'⟩
      · simp_all [collapseWs, pfx_nil_elim hm']
      · rw [collapseWs]
        simp only [hbws, Bool.false_eq_true, if_false]
        exact List.cons_prefix_cons.mpr ⟨rfl, ih (fun x hx => hm x (by simp [hx])) hm'⟩

theorem inner_collapseWs {m l : List Char} (hm : ∀ x ∈ m, isWs x = false)
    (hne : m ≠ []) (h : m <:+: l) : m <:+: collapseWs l := by
  induction l with
  | nil => exact absurd (inner_nil_elim h) hne
  | cons c rest ih =>
    by_cases hc : isWs c
    · have htail : m <:+: rest := by
        rcases inner_cons_elim h with hp | ht
        · rcases m with _ | ⟨b, m'⟩
          · exact absurd rfl hne
          · obtain ⟨rfl, _⟩ := List.cons_prefix_cons.mp hp
            exact absurd hc (by simp [hm b (by simp)])
        · exact ht
      rcases rest with _ | ⟨d, rest'⟩
      · exact absurd (inner_nil_elim htail) hne
      · by_cases hd : isWs d
        · rw [collapseWs]
          simp only [hc, if_true, hd]
          exact ih htail
        · rw [collapseWs]
          simp only [hc, if_true, hd, Bool.false_eq_true, if_false]
          exact inner_cons_of _ (ih htail)
    · rcases rest with _ | ⟨d, rest'⟩
      · rcases inner_cons_elim h with hp | ht
        · rcases m with _ | ⟨b, m'⟩
          · exact absurd rfl hne
          · obtain ⟨rfl, hm'⟩ := List.cons_prefix_cons.mp hp
            simp [collapseWs, hc, pfx_nil_elim hm']
        · exact absurd (inner_nil_elim ht) hne
      · rw [collapseWs]
        simp only [hc, Bool.false_eq_true, if_false]
        rcases inner_cons_elim h with hp | ht
        · rcases m with _ | ⟨b, m'⟩
          · exact absurd rfl hne
          · obtain ⟨rfl, hm'⟩ := List.cons_prefix_cons.mp hp
            exact pfx_toInner (List.cons_prefix_cons.mpr
              ⟨rfl, pfx_collapseWs (fun x hx => hm x (by simp [hx])) hm'⟩)
        · exact inner_cons_of _ (ih ht)

end WeightOcr

namespace WeightOcr

theorem pfx_of_collapseWs {m l : List Char} (hm : ∀ x ∈ m, isWs x = false)
    (h : m <+: collapseWs l) : m <+: l := by
  induction l generalizing m with
  | nil => simp_all [collapseWs, pfx_nil_elim h]
  | cons c rest ih =>
    rcases m with _ | ⟨b, m'⟩
    · simp
    · have hbws : isWs b = false := hm b (by simp)
      by_cases hc : isWs c
      · obtain ⟨t, ht⟩ := collapseWs_head_space rest hc
        rw [ht] at h
        obtain ⟨rfl, _⟩ := List.cons_prefix_cons.mp h
        exact absurd hbws (by decide)
      · rcases rest with _ | ⟨d, rest'⟩
        · simp only [collapseWs, hc, Bool.false_eq_true, if_false] at h
          obtain ⟨rfl, hm'⟩ := List.cons_prefix_cons.mp h
          simp [pfx_nil_elim hm']
        · rw [collapseWs] at h
          simp only [hc, Bool.false_eq_true, if_false] at h
          obtain ⟨rfl, hm'⟩ := List.cons_prefix_cons.mp h
          exact List.cons_prefix_cons.mpr
            ⟨rfl, ih (fun x hx => hm x (by simp [hx])) hm'⟩

theorem inner_of_collapseWs {m l : List Char} (hm : ∀ x ∈ m, isWs x = false)
    (hne : m ≠ []) (h : m <:+: collapseWs l) : m <:+: l := by
  induction l with
  | nil => exact absurd (inner_nil_elim (by simpa [collapseWs] using h)) hne
  | cons c rest ih =>
    by_cases hc : isWs c
    · obtain ⟨t, ht⟩ := collapseWs_head_space rest hc
      rcases rest with _ | ⟨d, rest'⟩
      · simp only [collapseWs, hc, if_true] at h
        rcases inner_cons_elim h with hp | hinf
        · rcases m with _ | ⟨b, m'⟩
          · exact absurd rfl hne
          · obtain ⟨rfl, _⟩ := List.cons_prefix_cons.mp hp
            exact absurd (hm ' ' (by simp)) (by decide)
        · exact absurd (inner_nil_elim hinf) hne
      · by_cases hd : isWs d
        · rw [collapseWs] at h
          simp only [hc, if_true, hd] at h
          exact inner_cons_of _ (ih h)
        · rw [collapseWs] at h
          simp only [hc, if_true, hd, Bool.false_eq_true, if_false] at h
          rcases inner_cons_elim h with hp | hinf
          · rcases m with _ | ⟨b, m'⟩
            · exact absurd rfl hne
            · obtain ⟨rfl, _⟩ := List.cons_prefix_cons.mp hp
              exact absurd (hm ' ' (by simp)) (by decide)
          · exact inner_cons_of _ (ih hinf)
    · rcases rest with _ | ⟨d, rest'⟩
      · simp only [collapseWs, hc, Bool.false_eq_true, if_false] at h
        exact h
      · rw [collapseWs] at h
        simp only [hc, Bool.false_eq_true, if_false] at h
        rcases inner_cons_elim h with hp | hinf
        · rcases m with _ | ⟨b, m'⟩
          · exact absurd rfl hne
          · obtain ⟨rfl, hm'⟩ := List.cons_prefix_cons.mp hp
            exact pfx_toInner (List.cons_prefix_cons.mpr
              ⟨rfl, pfx_of_collapseWs (fun x hx => hm x (by simp [hx])) hm'⟩)
        · exact inner_cons_of _ (ih hinf)

theorem inner_dropWhile {p : Char → Bool} {m l : List Char}
    (hm : ∀ x ∈ m, p x = false) (hne : m ≠ []) (h : m <:+: l) :
    m <:+: l.dropWhile p := by
  induction l with
  | nil => exact absurd (inner_nil_elim h) hne
  | cons c rest ih =>
    by_cases hc : p c
    · rw [List.dropWhile_cons]
      simp only [hc, if_true]
      rcases inner_cons_elim h with hp | hinf
      · rcases m with _ | ⟨b, m'⟩
        · exact absurd rfl hne
        · obtain ⟨rfl, _⟩ := List.cons_prefix_cons.mp hp
          simp [hm b (by simp)] at hc
      · exact ih hinf
    · rw [List.dropWhile_cons]
      simp only [hc, Bool.false_eq_true, if_false]
      exact h

theorem inner_trimWs {m l : List Char} (hm : ∀ x ∈ m, isWs x = false)
    (hne : m ≠ []) (h : m <:+: l) : m <:+: trimWs l := by
  have h1 : m <:+: l.dropWhile isWs := inner_dropWhile hm hne h
  have h2 : m.reverse <:+: (l.dropWhile isWs).reverse := inner_reverse h1
  have h3 : m.reverse <:+: (l.dropWhile isWs).reverse.dropWhile isWs :=
    inner_dropWhile (fun x hx => hm x (List.mem_reverse.mp hx))
      (by simpa using hne) h2
  have h4 := inner_reverse h3
  simpa [trimWs] using h4

theorem trimWs_inner (l : List Char) : trimWs l <:+: l := by
  have h1 : ((l.dropWhile isWs).reverse.dropWhile isWs).reverse <:+:
      (l.dropWhile isWs).reverse.reverse :=
    inner_reverse (sfx_toInner (List.dropWhile_suffix isWs))
  rw [List.reverse_reverse] at h1
  exact h1.trans (sfx_toInner (List.dropWhile_suffix isWs))

theorem inner_normalizeText {m t : List Char} (hm : ∀ x ∈ m, isWs x = false)
    (hne : m ≠ []) (h : m <:+: t) : m <:+: normalizeText t :=
  inner_trimWs hm hne (inner_collapseWs hm hne h)

theorem inner_of_normalizeText {m t : List Char} (hm : ∀ x ∈ m, isWs x = false)
    (hne : m ≠ []) (h : m <:+: normalizeText t) : m <:+: t :=
  inner_of_collapseWs hm hne (h.trans (trimWs_inner _))

theorem collapseWs_of_allWs {l : List Char} (h : ∀ c ∈ l, isWs c = true) :
    collapseWs l = [] ∨ collapseWs l = [' '] := by
  induction l with
  | nil => exact Or.inl rfl
  | cons c rest ih =>
    have hc : isWs c = true := h c (by simp)
    rcases rest with _ | ⟨d, rest'⟩
    · exact Or.inr (by simp [collapseWs, hc])
    · have hd : isWs d = true := h d (by simp)
      rw [collapseWs]
      simp only [hc, if_true, hd]
      exact ih (fun x hx => h x (by simp [hx]))

theorem normalizeText_of_allWs {l : List Char} (h : ∀ c ∈ l, isWs c = true) :
    normalizeText l = [] := by
  unfold normalizeText
  rcases collapseWs_of_allWs h with hc | hc <;> rw [hc] <;> decide

end WeightOcr

/-! ## Unfolding equations for the match scans -/

namespace WeightOcr

theorem dropWhile_length_le (p : Char → Bool) (l : List Char) :
    (l.dropWhile p).length ≤ l.length :=
  (List.dropWhile_sublist p).length_le

theorem wholeScanAux_fuel {f g : Nat} {l : List Char}
    (hf : l.length ≤ f) (hg : l.length ≤ g) :
    wholeScanAux f l = wholeScanAux g l := by
  induction f generalizing g l with
  | zero =>
    obtain rfl : l = [] := List.length_eq_zero.mp (Nat.le_zero.mp hf)
    cases g <;> rfl
  | succ f ih =>
    cases l with
    | nil => cases g <;> rfl
    | cons c rest =>
      cases g with
      | zero => simp at hg
      | succ g =>
        have hrf : rest.length ≤ f := by simpa using Nat.le_of_succ_le_succ hf
        have hrg : rest.length ≤ g := by simpa using Nat.le_of_succ_le_succ hg
        rw [wholeScanAux, wholeScanAux]
        by_cases hc : c.isDigit
        · have hx : ((c :: rest).dropWhile Char.isDigit).length ≤ rest.length := by
            rw [List.dropWhile_cons]
            simp only [hc, if_true]
            exact dropWhile_length_le _ _
          simp only [hc, if_true]
          rw [ih (hx.trans hrf) (hx.trans hrg)]
        · simp only [hc, Bool.false_eq_true, if_false]
          exact ih hrf hrg

theorem decScanAux_fuel {f g : Nat} {l : List Char}
    (hf : l.length ≤ f) (hg : l.length ≤ g) :
    decScanAux f l = decScanAux g l := by
  induction f generalizing g l with
  | zero =>
    obtain rfl : l = [] := List.length_eq_zero.mp (Nat.le_zero.mp hf)
    cases g <;> rfl
  | succ f ih =>
    cases l with
    | nil => cases g <;> rfl
    | cons c rest =>
      cases g with
      | zero => simp at hg
      | succ g =>
        have hrf : rest.length ≤ f := by simpa using Nat.le_of_succ_le_succ hf
        have hrg : rest.length ≤ g := by simpa using Nat.le_of_succ_le_succ hg
        rw [decScanAux, decScanAux]
        by_cases hc : c.isDigit
        · simp only [hc, if_true]
          rcases hdw : (c :: rest).dropWhile Char.isDigit with _ | ⟨s, _ | ⟨e, rest2⟩⟩
        -- dropWhile result empty
          · exact ih hrf hrg
          · exact ih hrf hrg
          · have hlen : rest2.length + 2 ≤ rest.length := by
              have h1 : ((c :: rest).dropWhile Char.isDigit).length ≤ rest.length := by
                rw [List.dropWhile_cons]
                simp only [hc, if_true]
                exact dropWhile_length_le _ _
              rw [hdw] at h1
              simp only [List.length_cons] at h1
              omega
            have hx : ((e :: rest2).dropWhile Char.isDigit).length ≤ rest.length := by
              have := dropWhile_length_le Char.isDigit (e :: rest2)
              simp only [List.length_cons] at this
              omega
            by_cases hse : (isSep s && e.isDigit) = true
            · simp only [hse, if_true]
              rw [ih (hx.trans hrf) (hx.trans hrg)]
            · simp only [hse, Bool.false_eq_true, if_false]
              exact ih hrf hrg
        · simp only [hc, Bool.false_eq_true, if_false]
          exact ih hrf hrg

theorem wholeScan_cons_digit {c : Char} {rest : List Char} (hc : c.isDigit = true) :
    wholeScan (c :: rest) =
      (c :: rest).takeWhile Char.isDigit
        :: wholeScan ((c :: rest).dropWhile Char.isDigit) := by
  have hx : ((c :: rest).dropWhile Char.isDigit).length ≤ rest.length := by
    rw [List.dropWhile_cons]
    simp only [hc, if_true]
    exact dropWhile_length_le _ _
  show wholeScanAux (c :: rest).length (c :: rest) = _
  simp only [List.length_cons]
  rw [wholeScanAux]
  simp only [hc, if_true]
  rw [wholeScanAux_fuel hx (le_refl _)]
  rfl

theorem wholeScan_cons_nondigit {c : Char} {rest : List Char}
    (hc : c.isDigit = false) : wholeScan (c :: rest) = wholeScan rest := by
  show wholeScanAux (c :: rest).length (c :: rest) = _
  simp only [List.length_cons]
  rw [wholeScanAux]
  simp only [hc, Bool.false_eq_true, if_false]
  rfl

theorem decScan_cons_nondigit {c : Char} {rest : List Char}
    (hc : c.isDigit = false) : decScan (c :: rest) = decScan rest := by
  show decScanAux (c :: rest).length (c :: rest) = _
  simp only [List.length_cons]
  rw [decScanAux]
  simp only [hc, Bool.false_eq_true, if_false]
  rfl

theorem decScan_cons_run_nil {c : Char} {rest : List Char} (hc : c.isDigit = true)
    (hdw : (c :: rest).dropWhile Char.isDigit = []) :
    decScan (c :: rest) = decScan rest := by
  show decScanAux (c :: rest).length (c :: rest) = _
  simp only [List.length_cons]
  rw [decScanAux]
  simp only [hc, if_true, hdw]
  rfl

theorem decScan_cons_run_single {c s : Char} {rest : List Char}
    (hc : c.isDigit = true) (hdw : (c :: rest).dropWhile Char.isDigit = [s]) :
    decScan (c :: rest) = decScan rest := by
  show decScanAux (c :: rest).length (c :: rest) = _
  simp only [List.length_cons]
  rw [decScanAux]
  simp only [hc, if_true, hdw]
  rfl

theorem decScan_cons_nomatch {c s e : Char} {rest rest2 : List Char}
    (hc : c.isDigit = true)
    (hdw : (c :: rest).dropWhile Char.isDigit = s :: e :: rest2)
    (hse : (isSep s && e.isDigit) = false) :
    decScan (c :: rest) = decScan rest := by
  show decScanAux (c :: rest).length (c :: rest) = _
  simp only [List.length_cons]
  rw [decScanAux]
  simp only [hc, if_true, hdw, hse, Bool.false_eq_true, if_false]
  rfl

theorem decScan_cons_match {c s e : Char} {rest rest2 : List Char}
    (hc : c.isDigit = true)
    (hdw : (c :: rest).dropWhile Char.isDigit = s :: e :: rest2)
    (hs : isSep s = true) (he : e.isDigit = true) :
    decScan (c :: rest) =
      ((c :: rest).takeWhile Char.isDigit
          ++ s :: (e :: rest2).takeWhile Char.isDigit)
        :: decScan ((e :: rest2).dropWhile Char.isDigit) := by
  have hlen : rest2.length + 2 ≤ rest.length := by
    have h1 : ((c :: rest).dropWhile Char.isDigit).length ≤ rest.length := by
      rw [List.dropWhile_cons]
      simp only [hc, if_true]
      exact dropWhile_length_le _ _
    rw [hdw] at h1
    simp only [List.length_cons] at h1
    omega
  have hx : ((e :: rest2).dropWhile Char.isDigit).length ≤ rest.length := by
    have := dropWhile_length_le Char.isDigit (e :: rest2)
    simp only [List.length_cons] at this
    omega
  show decScanAux (c :: rest).length (c :: rest) = _
  simp only [List.length_cons]
  rw [decScanAux]
  simp only [hc, if_true, hdw, hs, he, Bool.and_self, if_true]
  rw [decScanAux_fuel hx (le_refl _)]
  rfl

end WeightOcr

/-! ## What the scans find -/

namespace WeightOcr

theorem takeWhile_pfx (p : Char → Bool) (l : List Char) : l.takeWhile p <+: l :=
  ⟨l.dropWhile p, List.takeWhile_append_dropWhile p l⟩

theorem wholeScan_sound {l : List Char} :
    ∀ m ∈ wholeScan l, m ≠ [] ∧ (∀ c ∈ m, c.isDigit = true) ∧ m <:+: l := by
  suffices H : ∀ (n : Nat) (l : List Char), l.length ≤ n →
      ∀ m ∈ wholeScan l, m ≠ [] ∧ (∀ c ∈ m, c.isDigit = true) ∧ m <:+: l from
    H l.length l (le_refl _)
  intro n
  induction n with
  | zero =>
    intro l hl
    obtain rfl : l = [] := List.length_eq_zero.mp (Nat.le_zero.mp hl)
    intro m hm
    simp [wholeScan, wholeScanAux] at hm
  | succ n ih =>
    intro l hl m hm
    cases l with
    | nil => simp [wholeScan, wholeScanAux] at hm
    | cons c rest =>
      have hrest : rest.length ≤ n := by
        simpa using Nat.le_of_succ_le_succ hl
      by_cases hc : c.isDigit
      · rw [wholeScan_cons_digit hc] at hm
        rcases List.mem_cons.mp hm with rfl | hm'
        · refine ⟨?_, ?_, ?_⟩
          · simp [List.takeWhile_cons, hc]
          · exact fun x hx => List.mem_takeWhile_imp hx
          · exact pfx_toInner (takeWhile_pfx _ _)
        · have hxlen : ((c :: rest).dropWhile Char.isDigit).length ≤ n := by
            rw [List.dropWhile_cons]
            simp only [hc, if_true]
            exact (dropWhile_length_le _ _).trans hrest
          obtain ⟨hne, hdig, hinf⟩ := ih _ hxlen m hm'
          exact ⟨hne, hdig, hinf.trans (sfx_toInner (List.dropWhile_suffix _))⟩
      · rw [wholeScan_cons_nondigit (by simpa using hc)] at hm
        obtain ⟨hne, hdig, hinf⟩ := ih rest hrest m hm
        exact ⟨hne, hdig, inner_cons_of _ hinf⟩

theorem wholeScan_ne_nil {l : List Char} {c : Char} (hc : c.isDigit = true)
    (h : c ∈ l) : wholeScan l ≠ [] := by
  induction l with
  | nil => simp at h
  | cons a rest ih =>
    by_cases ha : a.isDigit
    · rw [wholeScan_cons_digit ha]
      simp
    · rw [wholeScan_cons_nondigit (by simpa using ha)]
      rcases List.mem_cons.mp h with rfl | h'
      · exact absurd hc (by simp [ha])
      · exact ih h'

theorem decScan_sound {l : List Char} :
    ∀ m ∈ decScan l,
      (∃ d₁ s d₂, m = d₁ ++ s :: d₂ ∧ d₁ ≠ [] ∧ d₂ ≠ [] ∧
        (∀ c ∈ d₁, c.isDigit = true) ∧ (∀ c ∈ d₂, c.isDigit = true) ∧
        isSep s = true) ∧ m <:+: l := by
  suffices H : ∀ (n : Nat) (l : List Char), l.length ≤ n →
      ∀ m ∈ decScan l,
        (∃ d₁ s d₂, m = d₁ ++ s :: d₂ ∧ d₁ ≠ [] ∧ d₂ ≠ [] ∧
          (∀ c ∈ d₁, c.isDigit = true) ∧ (∀ c ∈ d₂, c.isDigit = true) ∧
          isSep s = true) ∧ m <:+: l from
    H l.length l (le_refl _)
  intro n
  induction n with
  | zero =>
    intro l hl
    obtain rfl : l = [] := List.length_eq_zero.mp (Nat.le_zero.mp hl)
    intro m hm
    simp [decScan, decScanAux] at hm
  | succ n ih =>
    intro l hl m hm
    cases l with
    | nil => simp [decScan, decScanAux] at hm
    | cons c rest =>
      have hrest : rest.length ≤ n := by
        simpa using Nat.le_of_succ_le_succ hl
      by_cases hc : c.isDigit
      · rcases hdw : (c :: rest).dropWhile Char.isDigit with _ | ⟨s, _ | ⟨e, rest2⟩⟩
        · rw [decScan_cons_run_nil hc hdw] at hm
          obtain ⟨hshape, hinf⟩ := ih rest hrest m hm
          exact ⟨hshape, inner_cons_of _ hinf⟩
        · rw [decScan_cons_run_single hc hdw] at hm
          obtain ⟨hshape, hinf⟩ := ih rest hrest m hm
          exact ⟨hshape, inner_cons_of _ hinf⟩
        · by_cases hse : (isSep s && e.isDigit) = true
          · obtain ⟨hs, he⟩ := (show isSep s = true ∧ e.isDigit = true by simpa using hse)
            rw [decScan_cons_match hc hdw hs he] at hm
            rcases List.mem_cons.mp hm with rfl | hm'
            · constructor
              · refine ⟨(c :: rest).takeWhile Char.isDigit, s,
                  (e :: rest2).takeWhile Char.isDigit, rfl, ?_, ?_, ?_, ?_, hs⟩
                · simp [List.takeWhile_cons, hc]
                · simp [List.takeWhile_cons, he]
                · exact fun x hx => List.mem_takeWhile_imp hx
                · exact fun x hx => List.mem_takeWhile_imp hx
              · refine pfx_toInner ⟨(e :: rest2).dropWhile Char.isDigit, ?_⟩
                have h1 : (c :: rest).takeWhile Char.isDigit
                    ++ (c :: rest).dropWhile Char.isDigit = c :: rest :=
                  List.takeWhile_append_dropWhile _ _
                have h2 : (e :: rest2).takeWhile Char.isDigit
                    ++ (e :: rest2).dropWhile Char.isDigit = e :: rest2 :=
                  List.takeWhile_append_dropWhile _ _
                rw [hdw] at h1
                calc ((c :: rest).takeWhile Char.isDigit
                      ++ s :: (e :: rest2).takeWhile Char.isDigit)
                      ++ (e :: rest2).dropWhile Char.isDigit
                    = (c :: rest).takeWhile Char.isDigit
                      ++ s :: ((e :: rest2).takeWhile Char.isDigit
                        ++ (e :: rest2).dropWhile Char.isDigit) := by
                      simp [List.append_assoc]
                  _ = c :: rest := by rw [h2, h1]
            · have hxsfx : (e :: rest2).dropWhile Char.isDigit <:+ c :: rest := by
                have s1 : (e :: rest2).dropWhile Char.isDigit <:+ e :: rest2 :=
                  List.dropWhile_suffix _
                have s2 : e :: rest2 <:+ s :: e :: rest2 := List.suffix_cons _ _
                have s3 : s :: e :: rest2 <:+ c :: rest := hdw ▸ List.dropWhile_suffix _
                exact (s1.trans s2).trans s3
              have hxlen : ((e :: rest2).dropWhile Char.isDigit).length ≤ n := by
                have h1 : ((c :: rest).dropWhile Char.isDigit).length ≤ rest.length := by
                  rw [List.dropWhile_cons]
                  simp only [hc, if_true]
                  exact dropWhile_length_le _ _
                rw [hdw] at h1
                simp only [List.length_cons] at h1
                have h2 := dropWhile_length_le Char.isDigit (e :: rest2)
                simp only [List.length_cons] at h2
                omega
              obtain ⟨hshape, hinf⟩ := ih _ hxlen m hm'
              exact ⟨hshape, hinf.trans (sfx_toInner hxsfx)⟩
          · rw [decScan_cons_nomatch hc hdw (by simpa using hse)] at hm
            obtain ⟨hshape, hinf⟩ := ih rest hrest m hm
            exact ⟨hshape, inner_cons_of _ hinf⟩
      · rw [decScan_cons_nondigit (by simpa using hc)] at hm
        obtain ⟨hshape, hinf⟩ := ih rest hrest m hm
        exact ⟨hshape, inner_cons_of _ hinf⟩

theorem decScan_ne_nil {l : List Char} {a s e : Char} (ha : a.isDigit = true)
    (hs : isSep s = true) (he : e.isDigit = true) (h : [a, s, e] <:+: l) :
    decScan l ≠ [] := by
  induction l with
  | nil => exact absurd (inner_nil_elim h) (by simp)
  | cons c rest ih =>
    rcases inner_cons_elim h with hp | hinf
    · obtain ⟨t, ht⟩ := hp
      obtain ⟨hac, hrest⟩ := (show a = c ∧ s :: e :: t = rest by simpa using ht)
      rw [← hac, ← hrest]
      have hdw : (a :: s :: e :: t).dropWhile Char.isDigit = s :: e :: t := by
        rw [List.dropWhile_cons]
        simp only [ha, if_true]
        rw [List.dropWhile_cons]
        simp [sep_not_digit hs]
      rw [decScan_cons_match ha hdw hs he]
      simp
    · have htail : decScan rest ≠ [] := ih hinf
      by_cases hc : c.isDigit
      · rcases hdw : (c :: rest).dropWhile Char.isDigit with _ | ⟨s', _ | ⟨e', rest2⟩⟩
        · rw [decScan_cons_run_nil hc hdw]; exact htail
        · rw [decScan_cons_run_single hc hdw]; exact htail
        · by_cases hse : (isSep s' && e'.isDigit) = true
          · obtain ⟨hs', he'⟩ := (show isSep s' = true ∧ e'.isDigit = true by simpa using hse)
            rw [decScan_cons_match hc hdw hs' he']
            simp
          · rw [decScan_cons_nomatch hc hdw (by simpa using hse)]; exact htail
      · rw [decScan_cons_nondigit (by simpa using hc)]; exact htail

end WeightOcr

/-! ## The reduce-based selection picks the first longest match -/

namespace WeightOcr

theorem firstLongest_foldl (m : List Char) (ms : List (List Char)) :
    FirstLongest (longestOf m ms) (m :: ms) := by
  unfold longestOf
  induction ms generalizing m with
  | nil => exact ⟨[], [], rfl, by simp, by simp⟩
  | cons y ys ih =>
    rw [List.foldl_cons]
    obtain ⟨l₁, l₂, heq, hlt, hle⟩ := ih (pickLonger m y)
    by_cases hmy : m.length ≥ y.length
    · have hp : pickLonger m y = m := by simp [pickLonger, hmy]
      rw [hp] at heq hlt hle ⊢
      rcases l₁ with _ | ⟨z, l₁t⟩
      · obtain ⟨hm, hys⟩ : m = List.foldl pickLonger m ys ∧ ys = l₂ := by
          simpa using heq
        refine ⟨[], y :: ys, ?_, by simp, ?_⟩
        · simpa using hm
        · intro w hw
          rcases List.mem_cons.mp hw with rfl | hw'
          · rw [← hm]; exact hmy
          · exact hle w (hys ▸ hw')
      · obtain ⟨hz, hys⟩ :
            m = z ∧ ys = l₁t ++ List.foldl pickLonger m ys :: l₂ := by
          simpa using heq
        refine ⟨m :: y :: l₁t, l₂, ?_, ?_, hle⟩
        · conv_lhs => rw [hys]
          simp
        · intro w hw
          have hmlt : m.length < (List.foldl pickLonger m ys).length := by
            have := hlt z (by simp)
            rw [← hz] at this
            exact this
          rcases List.mem_cons.mp hw with rfl | hw'
          · exact hmlt
          · rcases List.mem_cons.mp hw' with rfl | hw''
            · exact lt_of_le_of_lt hmy hmlt
            · exact hlt w (by simp [hw''])
    · have hylt : m.length < y.length := lt_of_not_ge hmy
      have hp : pickLonger m y = y := by
        simp only [pickLonger, ge_iff_le, ite_eq_right_iff]
        intro hc
        exact absurd hc (by omega)
      rw [hp] at heq hlt hle ⊢
      rcases l₁ with _ | ⟨z, l₁t⟩
      · obtain ⟨hm, hys⟩ : y = List.foldl pickLonger y ys ∧ ys = l₂ := by
          simpa using heq
        refine ⟨[m], ys, ?_, ?_, ?_⟩
        · simpa using hm
        · intro w hw
          rcases List.mem_cons.mp hw with rfl | hw'
          · rw [← hm]; exact hylt
          · simp at hw'
        · intro w hw
          exact hle w (hys ▸ hw)
      · obtain ⟨hz, hys⟩ :
            y = z ∧ ys = l₁t ++ List.foldl pickLonger y ys :: l₂ := by
          simpa using heq
        refine ⟨m :: y :: l₁t, l₂, ?_, ?_, hle⟩
        · conv_lhs => rw [hys]
          simp
        · intro w hw
          have hylt2 : y.length < (List.foldl pickLonger y ys).length := by
            have := hlt z (by simp)
            rw [← hz] at this
            exact this
          rcases List.mem_cons.mp hw with rfl | hw'
          · exact hylt.trans hylt2
          · rcases List.mem_cons.mp hw' with rfl | hw''
            · exact hylt2
            · exact hlt w (by simp [hw''])

theorem firstLongest_mem {m : List Char} {l : List (List Char)}
    (h : FirstLongest m l) : m ∈ l := by
  obtain ⟨l₁, l₂, rfl, _, _⟩ := h
  simp

theorem digit_ne_comma {c : Char} (h : c.isDigit = true) : c ≠ ',' := by
  intro hc
  subst hc
  exact absurd h (by decide)

theorem replaceFirstComma_of_no_comma {l : List Char} (h : ∀ c ∈ l, c ≠ ',') :
    replaceFirstComma l = l := by
  induction l with
  | nil => rfl
  | cons c rest ih =>
    rw [replaceFirstComma, if_neg (h c (by simp)), ih (fun x hx => h x (by simp [hx]))]

theorem replaceFirstComma_decimal {d₁ d₂ : List Char} {s : Char}
    (h₁ : ∀ c ∈ d₁, c.isDigit = true) (h₂ : ∀ c ∈ d₂, c.isDigit = true)
    (hs : isSep s = true) :
    replaceFirstComma (d₁ ++ s :: d₂) = d₁ ++ '.' :: d₂ := by
  induction d₁ with
  | nil =>
    simp only [List.nil_append]
    rcases (show s = '.' ∨ s = ',' by simpa [isSep] using hs) with rfl | rfl
    · rw [replaceFirstComma, if_neg (by decide),
        replaceFirstComma_of_no_comma (fun c hc => digit_ne_comma (h₂ c hc))]
    · rw [replaceFirstComma, if_pos rfl]
  | cons a d₁t ih =>
    have ha : a.isDigit = true := h₁ a (by simp)
    rw [List.cons_append, replaceFirstComma, if_neg (digit_ne_comma ha),
      ih (fun x hx => h₁ x (by simp [hx])), List.cons_append]

end WeightOcr

/-! ## Unfolding the extractor by branch -/

namespace WeightOcr

theorem extract_eq_of_decScan {t m : List Char} {ms : List (List Char)}
    (h : decScan (normalizeText t) = m :: ms) :
    extractWeightFromText t = ⟨replaceFirstComma (longestOf m ms), 0.95⟩ := by
  unfold normalizeText at h
  simp only [extractWeightFromText]
  rw [h]

theorem extract_eq_of_wholeScan {t m : List Char} {ms : List (List Char)}
    (hd : decScan (normalizeText t) = [])
    (hw : wholeScan (normalizeText t) = m :: ms) :
    extractWeightFromText t = ⟨longestOf m ms, 0.9⟩ := by
  unfold normalizeText at hd hw
  simp only [extractWeightFromText]
  rw [hd, hw]

theorem extract_eq_fallback {t : List Char}
    (hd : decScan (normalizeText t) = [])
    (hw : wholeScan (normalizeText t) = []) :
    extractWeightFromText t = ⟨normalizeText t, 0.5⟩ := by
  unfold normalizeText at hd hw ⊢
  simp only [extractWeightFromText]
  rw [hd, hw]

theorem decScan_empty_of_not_decimal {t : List Char} (hnd : ¬ DecimalOccurs t) :
    decScan (normalizeText t) = [] := by
  rcases hd : decScan (normalizeText t) with _ | ⟨m, ms⟩
  · rfl
  · exfalso
    have hmem : m ∈ decScan (normalizeText t) := by rw [hd]; simp
    obtain ⟨⟨d₁, s, d₂, hshape, hd1ne, hd2ne, hd1, hd2, hs⟩, hinf⟩ :=
      decScan_sound m hmem
    apply hnd
    have hmns : ∀ x ∈ m, isWs x = false := by
      rw [hshape]
      intro x hx
      rcases List.mem_append.mp hx with hx1 | hx2
      · exact digit_not_ws (hd1 x hx1)
      · rcases List.mem_cons.mp hx2 with rfl | hx3
        · exact sep_not_ws hs
        · exact digit_not_ws (hd2 x hx3)
    have hmne : m ≠ [] := by
      rw [hshape]
      simp
    have hback : m <:+: t := inner_of_normalizeText hmns hmne hinf
    rw [hshape] at hback
    exact ⟨d₁, s, d₂, hd1ne, hd2ne, hd1, hd2, hs, hback⟩

theorem wholeScan_empty_of_not_whole {t : List Char} (hnw : ¬ WholeOccurs t) :
    wholeScan (normalizeText t) = [] := by
  rcases hw : wholeScan (normalizeText t) with _ | ⟨m, ms⟩
  · rfl
  · exfalso
    have hmem : m ∈ wholeScan (normalizeText t) := by rw [hw]; simp
    obtain ⟨hmne, hdig, hinf⟩ := wholeScan_sound m hmem
    apply hnw
    have hmns : ∀ x ∈ m, isWs x = false := fun x hx => digit_not_ws (hdig x hx)
    exact ⟨m, hmne, hdig, inner_of_normalizeText hmns hmne hinf⟩

theorem extract_confidence_mem (t : List Char) :
    (extractWeightFromText t).confidence = 0.5 ∨
    (extractWeightFromText t).confidence = 0.9 ∨
    (extractWeightFromText t).confidence = 0.95 := by
  rcases hd : decScan (trimWs (collapseWs t)) with _ | ⟨m, ms⟩
  · rcases hw : wholeScan (trimWs (collapseWs t)) with _ | ⟨m, ms⟩
    · left
      simp [extractWeightFromText, hd, hw]
    · right; left
      simp [extractWeightFromText, hd, hw]
  · right; right
    simp [extractWeightFromText, hd]

end WeightOcr

/-! ## Occurrence helpers for concrete inputs -/

namespace WeightOcr

theorem not_decimal_of_no_sep {l : List Char} (h : ∀ c ∈ l, isSep c = false) :
    ¬ DecimalOccurs l := by
  rintro ⟨d₁, s, d₂, _, _, _, _, hs, hinf⟩
  have hsl : s ∈ l := hinf.subset (by simp)
  rw [h s hsl] at hs
  cases hs

theorem not_whole_of_no_digit {l : List Char} (h : ∀ c ∈ l, c.isDigit = false) :
    ¬ WholeOccurs l := by
  rintro ⟨d, hne, hdig, hinf⟩
  cases d with
  | nil => exact hne rfl
  | cons c d' =>
    have hcl : c ∈ l := hinf.subset (by simp)
    have := hdig c (by simp)
    rw [h c hcl] at this
    cases this

theorem not_decimal_of_no_digit {l : List Char} (h : ∀ c ∈ l, c.isDigit = false) :
    ¬ DecimalOccurs l := by
  rintro ⟨d₁, s, d₂, hne, _, hd1, _, _, hinf⟩
  cases d₁ with
  | nil => exact hne rfl
  | cons c d' =>
    have hcl : c ∈ l := hinf.subset (by simp)
    have := hd1 c (by simp)
    rw [h c hcl] at this
    cases this

/-! ## Claim theorems: the Weight Extractor -/

/-- C1: for every input text in which at least one decimal-number pattern
(one-or-more digits, a `.` or `,` separator, one-or-more digits) occurs,
the extractor returns as value the longest decimal matching substring
(ties broken by first occurrence in the text), with its separator
normalized to `.`, and with localConfidence 0.95. -/
theorem extractor_decimal_longest (t : List Char) (h : DecimalOccurs t) :
    ∃ m d₁ s d₂, FirstLongest m (decScan (normalizeText t)) ∧
      m = d₁ ++ s :: d₂ ∧ d₁ ≠ [] ∧ d₂ ≠ [] ∧
      (∀ c ∈ d₁, c.isDigit = true) ∧ (∀ c ∈ d₂, c.isDigit = true) ∧
      isSep s = true ∧
      extractWeightFromText t = ⟨d₁ ++ '.' :: d₂, 0.95⟩ := by
  obtain ⟨e₁, s, e₂, h1ne, h2ne, h1d, h2d, hsep, hinf⟩ := h
  obtain ⟨e₁', a, rfl⟩ : ∃ l x, e₁ = l ++ [x] := by
    rcases List.eq_nil_or_concat e₁ with rfl | ⟨l, x, hx⟩
    · exact absurd rfl h1ne
    · exact ⟨l, x, by simpa [List.concat_eq_append] using hx⟩
  obtain ⟨b, e₂', rfl⟩ : ∃ x l, e₂ = x :: l := by
    cases e₂ with
    | nil => exact absurd rfl h2ne
    | cons x l => exact ⟨x, l, rfl⟩
  have ha : a.isDigit = true := h1d a (by simp)
  have hb : b.isDigit = true := h2d b (by simp)
  have hcore : [a, s, b] <:+: t := by
    have hin : [a, s, b] <:+: (e₁' ++ [a]) ++ s :: b :: e₂' :=
      ⟨e₁', e₂', by simp⟩
    exact hin.trans hinf
  have hnonws : ∀ x ∈ [a, s, b], isWs x = false := by
    intro x hx
    rcases List.mem_cons.mp hx with rfl | hx'
    · exact digit_not_ws ha
    · rcases List.mem_cons.mp hx' with rfl | hx''
      · exact sep_not_ws hsep
      · rcases List.mem_cons.mp hx'' with rfl | hx3
        · exact digit_not_ws hb
        · simp at hx3
  have hcore' : [a, s, b] <:+: normalizeText t :=
    inner_normalizeText hnonws (by simp) hcore
  have hne := decScan_ne_nil ha hsep hb hcore'
  rcases hscan : decScan (normalizeText t) with _ | ⟨m, ms⟩
  · exact absurd hscan hne
  · have hfl := firstLongest_foldl m ms
    have hmem : longestOf m ms ∈ decScan (normalizeText t) := by
      rw [hscan]
      exact firstLongest_mem hfl
    obtain ⟨⟨d₁, s', d₂, hshape, hd1ne, hd2ne, hd1, hd2, hs'⟩, _⟩ :=
      decScan_sound _ hmem
    refine ⟨longestOf m ms, d₁, s', d₂, hfl, hshape, hd1ne, hd2ne, hd1, hd2,
      hs', ?_⟩
    rw [extract_eq_of_decScan hscan, hshape,
      replaceFirstComma_decimal hd1 hd2 hs']

/-- Witness for C1 at the spec's own scenario `"162,6 kg"`. -/
theorem extractor_decimal_longest_witness :
    ∃ m d₁ s d₂,
      FirstLongest m
        (decScan (normalizeText ['1', '6', '2', ',', '6', ' ', 'k', 'g'])) ∧
      m = d₁ ++ s :: d₂ ∧ d₁ ≠ [] ∧ d₂ ≠ [] ∧
      (∀ c ∈ d₁, c.isDigit = true) ∧ (∀ c ∈ d₂, c.isDigit = true) ∧
      isSep s = true ∧
      extractWeightFromText ['1', '6', '2', ',', '6', ' ', 'k', 'g']
        = ⟨['1', '6', '2', '.', '6'], 0.95⟩ := by
  obtain ⟨m, d₁, s, d₂, hfl, hshape, h1, h2, h3, h4, h5, hval⟩ :=
    extractor_decimal_longest ['1', '6', '2', ',', '6', ' ', 'k', 'g']
      ⟨['1', '6', '2'], ',', ['6'], by decide, by decide, by decide, by decide,
        by decide, by decide⟩
  have hd : d₁ ++ '.' :: d₂ = ['1', '6', '2', '.', '6'] := by
    have := hval
    rw [show extractWeightFromText ['1', '6', '2', ',', '6', ' ', 'k', 'g']
        = ⟨['1', '6', '2', '.', '6'], 0.95⟩ from rfl] at this
    exact (congrArg ExtractResult.value this).symm
  exact ⟨m, d₁, s, d₂, hfl, hshape, h1, h2, h3, h4, h5, by rw [hval, hd]⟩

/-- C2: for every input text containing no decimal-number pattern but at
least one whole-number pattern, the extractor returns the longest
whole-number matching substring (ties broken by first occurrence) with
localConfidence 0.9; in particular `"1\n1626"` yields value `"1626"` at
confidence 0.9. -/
theorem extractor_whole_longest (t : List Char) (hnd : ¬ DecimalOccurs t)
    (hw : WholeOccurs t) :
    (∃ m, FirstLongest m (wholeScan (normalizeText t)) ∧ m ≠ [] ∧
      (∀ c ∈ m, c.isDigit = true) ∧ extractWeightFromText t = ⟨m, 0.9⟩) ∧
    extractWeightFromText ['1', '\n', '1', '6', '2', '6']
      = ⟨['1', '6', '2', '6'], 0.9⟩ := by
  refine ⟨?_, rfl⟩
  have hdec : decScan (normalizeText t) = [] := decScan_empty_of_not_decimal hnd
  obtain ⟨d, hdne, hdig, hdinf⟩ := hw
  obtain ⟨c, d', rfl⟩ : ∃ x l, d = x :: l := by
    cases d with
    | nil => exact absurd rfl hdne
    | cons x l => exact ⟨x, l, rfl⟩
  have hc : c.isDigit = true := hdig c (by simp)
  have hcin : [c] <:+: t := by
    have h1 : [c] <:+: c :: d' := ⟨[], d', by simp⟩
    exact h1.trans hdinf
  have hcin' : [c] <:+: normalizeText t :=
    inner_normalizeText (by simpa using digit_not_ws hc) (by simp) hcin
  have hne := wholeScan_ne_nil hc (singleton_inner_iff_mem.mp hcin')
  rcases hws : wholeScan (normalizeText t) with _ | ⟨m, ms⟩
  · exact absurd hws hne
  · have hfl := firstLongest_foldl m ms
    have hmem : longestOf m ms ∈ wholeScan (normalizeText t) := by
      rw [hws]
      exact firstLongest_mem hfl
    obtain ⟨hmne, hmdig, _⟩ := wholeScan_sound _ hmem
    exact ⟨longestOf m ms, hfl, hmne, hmdig, extract_eq_of_wholeScan hdec hws⟩

/-- Witness for C2 at the spec's own scenario `"1\n1626"`. -/
theorem extractor_whole_longest_witness :
    (∃ m,
      FirstLongest m (wholeScan (normalizeText ['1', '\n', '1', '6', '2', '6'])) ∧
      m ≠ [] ∧ (∀ c ∈ m, c.isDigit = true) ∧
      extractWeightFromText ['1', '\n', '1', '6', '2', '6'] = ⟨m, 0.9⟩) ∧
    extractWeightFromText ['1', '\n', '1', '6', '2', '6']
      = ⟨['1', '6', '2', '6'], 0.9⟩ :=
  extractor_whole_longest ['1', '\n', '1', '6', '2', '6']
    (not_decimal_of_no_sep (by decide))
    ⟨['1'], by decide, by decide, by decide⟩

end WeightOcr

namespace WeightOcr

/-- C6: for every input text with no numeric pattern (neither decimal nor
whole-number), the extractor returns — as a successful (total) result,
never a raised error — the whitespace-normalized input text as the value
with localConfidence 0.5.  The embedding `extractWeightFromText` is a
total function, so this branch is a normal return, not a failure. -/
theorem extractor_fallback_normalized (t : List Char)
    (hnd : ¬ DecimalOccurs t) (hnw : ¬ WholeOccurs t) :
    extractWeightFromText t = ⟨normalizeText t, 0.5⟩ :=
  extract_eq_fallback (decScan_empty_of_not_decimal hnd)
    (wholeScan_empty_of_not_whole hnw)

/-- Witness for C6 at the spec's own scenario `"ERROR"`. -/
theorem extractor_fallback_normalized_witness :
    extractWeightFromText ['E', 'R', 'R', 'O', 'R']
      = ⟨normalizeText ['E', 'R', 'R', 'O', 'R'], 0.5⟩ :=
  extractor_fallback_normalized ['E', 'R', 'R', 'O', 'R']
    (not_decimal_of_no_digit (by decide))
    (not_whole_of_no_digit (by decide))

/-- C8: the Weight Extractor is deterministic — it is a pure function of
the input text alone, so two applications to identical texts yield
identical outputs. -/
theorem extractor_deterministic (t₁ t₂ : List Char) (h : t₁ = t₂) :
    extractWeightFromText t₁ = extractWeightFromText t₂ := by
  rw [h]

/-- Witness for C8 at the text `"162,6 kg"`. -/
theorem extractor_deterministic_witness :
    extractWeightFromText ['1', '6', '2', ',', '6', ' ', 'k', 'g']
      = extractWeightFromText ['1', '6', '2', ',', '6', ' ', 'k', 'g'] :=
  extractor_deterministic _ _ rfl

/-- C9: for every input text the extractor's localConfidence is exactly one
of 0.5, 0.9 and 0.95. -/
theorem extractor_confidence_three_values (t : List Char) :
    (extractWeightFromText t).confidence = 0.5 ∨
    (extractWeightFromText t).confidence = 0.9 ∨
    (extractWeightFromText t).confidence = 0.95 :=
  extract_confidence_mem t

/-- C10: for the empty input text and for every input text consisting only
of whitespace characters, the extractor returns the empty string as the
value with localConfidence 0.5. -/
theorem extractor_whitespace_empty (t : List Char)
    (h : ∀ c ∈ t, isWs c = true) :
    extractWeightFromText t = ⟨[], 0.5⟩ := by
  have hn := normalizeText_of_allWs h
  have hdec : decScan (normalizeText t) = [] := by rw [hn]; rfl
  have hwhole : wholeScan (normalizeText t) = [] := by rw [hn]; rfl
  rw [extract_eq_fallback hdec hwhole, hn]

/-- Witness for C10 at the whitespace-only text `" \n\t "` (and note the
empty text is the `t = []` instance, where the hypothesis is vacuous). -/
theorem extractor_whitespace_empty_witness :
    extractWeightFromText [' ', '\n', '\t', ' '] = ⟨[], 0.5⟩ ∧
    extractWeightFromText [] = ⟨[], 0.5⟩ :=
  ⟨extractor_whitespace_empty [' ', '\n', '\t', ' '] (by decide),
    extractor_whitespace_empty [] (by decide)⟩

end WeightOcr

namespace WeightOcr

/-- C7: for every engine confidence in `[0, 100]` and every extractor
localConfidence, the final confidence equals
`(engineConfidence / 100) * localConfidence` and lies in `[0, 1]`;
in particular engine confidence 88 with extractor confidence 0.95 gives
`0.88 * 0.95 = 0.836`. -/
theorem recognize_confidence_product (t : List Char) (e : ℚ)
    (h0 : 0 ≤ e) (h100 : e ≤ 100) :
    (recognizeWeightResult t e).confidence
        = e / 100 * (extractWeightFromText t).confidence ∧
    0 ≤ (recognizeWeightResult t e).confidence ∧
    (recognizeWeightResult t e).confidence ≤ 1 ∧
    (88 : ℚ) / 100 * (0.95 : ℚ) = 0.836 := by
  have hc := extract_confidence_mem t
  have hconf : (recognizeWeightResult t e).confidence
      = e * (extractWeightFromText t).confidence / 100 := rfl
  refine ⟨by rw [hconf]; ring, ?_, ?_, by norm_num⟩
  · rw [hconf]
    rcases hc with h | h | h <;> rw [h] <;> nlinarith
  · rw [hconf]
    rcases hc with h | h | h <;> rw [h] <;> nlinarith

/-- Witness for C7 at the spec's own scenario: engine confidence 88. -/
theorem recognize_confidence_product_witness :
    (recognizeWeightResult ['1', '6', '2', ',', '6', ' ', 'k', 'g'] 88).confidence
        = 88 / 100
          * (extractWeightFromText ['1', '6', '2', ',', '6', ' ', 'k', 'g']).confidence ∧
    0 ≤ (recognizeWeightResult ['1', '6', '2', ',', '6', ' ', 'k', 'g'] 88).confidence ∧
    (recognizeWeightResult ['1', '6', '2', ',', '6', ' ', 'k', 'g'] 88).confidence ≤ 1 ∧
    (88 : ℚ) / 100 * (0.95 : ℚ) = 0.836 :=
  recognize_confidence_product ['1', '6', '2', ',', '6', ' ', 'k', 'g'] 88
    (by norm_num) (by norm_num)

/-! ## Claim theorems: the Admission Gate -/

/-- C3: over every valid sequence of admission attempts and exits started
at a counter within bounds, the in-flight counter stays within
`[0, maxConcurrent]` at every intermediate point (every prefix of the
event trace). -/
theorem gate_counter_bounded (maxConcurrent c : ℤ) (es pre : List GateEvent)
    (h0 : 0 ≤ c) (hm : c ≤ maxConcurrent)
    (hv : gateValid maxConcurrent c es = true) (hp : pre <+: es) :
    0 ≤ gateRun maxConcurrent c pre ∧
      gateRun maxConcurrent c pre ≤ maxConcurrent := by
  induction pre generalizing c es with
  | nil => exact ⟨h0, hm⟩
  | cons ev pre' ih =>
    obtain ⟨tl, rfl⟩ := hp
    cases ev with
    | attempt =>
      rw [gateRun]
      simp only [gateValid] at hv
      by_cases hcm : c < maxConcurrent
      · have h1 : (tryEnter maxConcurrent c).1 = c + 1 := by
          simp [tryEnter, not_le_of_lt hcm]
        rw [h1] at hv ⊢
        exact ih (c + 1) (pre' ++ tl) (by omega) (by omega) hv ⟨tl, rfl⟩
      · have h1 : (tryEnter maxConcurrent c).1 = c := by
          simp [tryEnter, le_of_not_lt hcm]
        rw [h1] at hv ⊢
        exact ih c (pre' ++ tl) h0 hm hv ⟨tl, rfl⟩
    | exitEv =>
      rw [gateRun, gateExit]
      simp only [gateValid] at hv
      obtain ⟨hpos, hv'⟩ := (show 0 < c ∧
          gateValid maxConcurrent (gateExit c) (pre' ++ tl) = true by
        simpa using hv)
      rw [gateExit] at hv'
      exact ih (c - 1) (pre' ++ tl) (by omega) (by omega) hv' ⟨tl, rfl⟩

/-- Witness for C3: limit 2, trace attempt-attempt-attempt-exit-attempt
from counter 0, checked over the full trace. -/
theorem gate_counter_bounded_witness :
    0 ≤ gateRun 2 0 [.attempt, .attempt, .attempt, .exitEv, .attempt] ∧
      gateRun 2 0 [.attempt, .attempt, .attempt, .exitEv, .attempt] ≤ 2 :=
  gate_counter_bounded 2 0 [.attempt, .attempt, .attempt, .exitEv, .attempt]
    [.attempt, .attempt, .attempt, .exitEv, .attempt]
    (by decide) (by decide) (by decide) (by decide)

/-- C4: an admission attempt is granted (incrementing the count) exactly
when the count is strictly below `maxConcurrent`, and rejected with the
count unchanged otherwise; with `maxConcurrent = 2` and two sections
held open the third attempt is rejected, and after one exit a subsequent
attempt is granted. -/
theorem tryEnter_grant_iff (maxConcurrent c : ℤ) :
    ((tryEnter maxConcurrent c).2 = true ↔ c < maxConcurrent) ∧
    ((tryEnter maxConcurrent c).2 = true →
      (tryEnter maxConcurrent c).1 = c + 1) ∧
    ((tryEnter maxConcurrent c).2 = false →
      (tryEnter maxConcurrent c).1 = c) ∧
    ((tryEnter 2 0).2 = true ∧ (tryEnter 2 0).1 = 1 ∧
      (tryEnter 2 1).2 = true ∧ (tryEnter 2 1).1 = 2 ∧
      (tryEnter 2 2).2 = false ∧ (tryEnter 2 2).1 = 2 ∧
      (tryEnter 2 (gateExit 2)).2 = true) := by
  refine ⟨?_, ?_, ?_, by decide⟩
  · constructor
    · intro h
      by_contra hc
      simp [tryEnter, le_of_not_lt hc] at h
    · intro h
      simp [tryEnter, not_le_of_lt h]
  · intro h
    by_cases hc : c < maxConcurrent
    · simp [tryEnter, not_le_of_lt hc]
    · simp [tryEnter, le_of_not_lt hc] at h
  · intro h
    by_cases hc : c < maxConcurrent
    · simp [tryEnter, not_le_of_lt hc] at h
    · simp [tryEnter, le_of_not_lt hc]

/-- Witness for C4 at `maxConcurrent = 2`, count 1. -/
theorem tryEnter_grant_iff_witness :
    ((tryEnter 2 1).2 = true ↔ (1 : ℤ) < 2) ∧
    ((tryEnter 2 1).2 = true → (tryEnter 2 1).1 = 1 + 1) ∧
    ((tryEnter 2 1).2 = false → (tryEnter 2 1).1 = 1) ∧
    ((tryEnter 2 0).2 = true ∧ (tryEnter 2 0).1 = 1 ∧
      (tryEnter 2 1).2 = true ∧ (tryEnter 2 1).1 = 2 ∧
      (tryEnter 2 2).2 = false ∧ (tryEnter 2 2).1 = 2 ∧
      (tryEnter 2 (gateExit 2)).2 = true) :=
  tryEnter_grant_iff 2 1

/-- C5: after a granted admission the counter is decremented exactly once
before the upload handler returns, on both exit paths of the guarded OCR
call — normal completion and engine failure (which is answered as a
server error, not leaked past the release). -/
theorem upload_releases_slot (maxConcurrent c : ℤ) (ocr : OcrOutcome)
    (h : c < maxConcurrent) :
    (uploadStep maxConcurrent c ocr).1 = c ∧
    (∀ r, ocr = .ok r →
      (uploadStep maxConcurrent c ocr).2 = .success r) ∧
    (ocr = .engineError →
      (uploadStep maxConcurrent c ocr).2 = .serverError) := by
  have hns : ¬ c ≥ maxConcurrent := not_le_of_lt h
  cases ocr with
  | ok r =>
    refine ⟨?_, ?_, ?_⟩
    · simp [uploadStep, hns, gateExit]
    · rintro r' hr
      obtain rfl : r = r' := by injection hr
      simp [uploadStep, hns]
    · intro hr
      cases hr
  | engineError =>
    refine ⟨?_, ?_, ?_⟩
    · simp [uploadStep, hns, gateExit]
    · rintro r' hr
      cases hr
    · intro _
      simp [uploadStep, hns]

/-- Witness for C5: limit 2, counter 1, on the engine-failure path. -/
theorem upload_releases_slot_witness :
    (uploadStep 2 1 .engineError).1 = 1 ∧
    (∀ r, OcrOutcome.engineError = .ok r →
      (uploadStep 2 1 .engineError).2 = .success r) ∧
    (OcrOutcome.engineError = .engineError →
      (uploadStep 2 1 .engineError).2 = .serverError) :=
  upload_releases_slot 2 1 .engineError (by decide)

end WeightOcr
